import Mathlib

/-!
Verification of the music-visualizer backend core.

This file gives a shallow embedding, over the rational numbers, of the
pure computational core of the repository:

* `src/backend/render_video.py` — feature interpolation, beat pulse,
  section lookup, visual-state resolution, HSV→RGB conversion, the
  particle simulator, and the frame-factory mode dispatch;
* `src/backend/audio_analysis.py` — the enhanced section segmenter
  `detect_sections_enhanced`.

Modelling conventions:
* Python floats are modelled as `ℚ`; float literals are taken at their
  decimal value (`0.06 = 3/50`, `0.98 = 49/50`, …).
* Library functions that are irrational on `ℚ` (`math.sqrt`, `math.cos`,
  `math.sin`, `math.pi`, the square root inside `np.std`) are passed in
  as explicit function parameters, so every theorem quantifies over all
  possible values of those functions unless it needs a property of them.
* `np.random.random()` is modelled as an explicit stream `rng : ℕ → ℚ`
  together with a cursor threaded through the computation; the fact that
  numpy draws lie in `[0, 1)` becomes an explicit hypothesis.
* Python truthiness of `None`/`[]` for optional lists is modelled by
  using a plain list, with `[]` playing the role of both `None` and the
  empty list (the code distinguishes them nowhere).
* `np.mean` of an empty slice (a NaN in numpy) is modelled as `0`; no
  theorem in this file depends on the value produced for an empty slice.
* `np.searchsorted` (side `left`) is modelled as the number of elements
  strictly below the key, which is what the binary search computes on
  the sorted inputs all theorems below assume.
-/

/-- `models.py` — `BeatInfo`: a detected beat. -/
structure BeatInfo where
  time : ℚ
  strength : ℚ
deriving Repr, DecidableEq

/-- `models.py` — `FrameFeature`: one spectral feature sample. -/
structure FrameFeature where
  time : ℚ
  bass : ℚ
  mid : ℚ
  treble : ℚ
  energy : ℚ
deriving Repr, DecidableEq

/-- `models.py` — `LyricSegment`: one transcribed lyric span. -/
structure LyricSegment where
  start : ℚ
  «end» : ℚ
  text : String
  sentiment : ℚ
  emotion : String
  intensity : ℚ
deriving Repr, DecidableEq

/-- `models.py` — `SectionInfo`: one structural section of the track. -/
structure SectionInfo where
  start : ℚ
  «end» : ℚ
  type : String
  energy : ℚ
  emotion : Option String
deriving Repr, DecidableEq

/-- The slice of `AudioAnalysisResponse` / `ExtendedAudioAnalysisResponse`
(`models.py`) consumed by the rendering core.  `sections = []` models both
`sections = None` and an empty section list, and likewise for `lyrics`
(the code only ever tests their Python truthiness). -/
structure Analysis where
  duration : ℚ
  bpm : ℚ
  beats : List BeatInfo
  frames : List FrameFeature
  sections : List SectionInfo
  lyrics : List LyricSegment
deriving Repr, DecidableEq

/-- `render_video.py` — `VisualStateAtTime`. -/
structure VisualStateAtTime where
  time : ℚ
  bass : ℚ
  mid : ℚ
  treble : ℚ
  energy : ℚ
  beat_pulse : ℚ
  current_section : String
  lyric_sentiment : ℚ
  lyric_energy : ℚ
deriving Repr, DecidableEq

/-- The dict returned by `interpolate_features`. -/
structure Feat where
  bass : ℚ
  mid : ℚ
  treble : ℚ
  energy : ℚ
deriving Repr, DecidableEq

/-- The spectral fields of one `FrameFeature`, as the dict built at
`render_video.py:35`/`:39`. -/
def FrameFeature.toFeat (f : FrameFeature) : Feat :=
  ⟨f.bass, f.mid, f.treble, f.energy⟩

/-- `render_video.py:44-51` — the body executed once the bracketing pair
`(f0, f1)` with `f0.time ≤ t ≤ f1.time` has been located: linear
interpolation with `alpha = (t - f0.time) / (f1.time - f0.time)` guarded
to `0` when the bracket does not have positive width. -/
def interpPair (f0 f1 : FrameFeature) (t : ℚ) : Feat :=
  let alpha := if f0.time < f1.time then (t - f0.time) / (f1.time - f0.time) else 0
  ⟨f0.bass + alpha * (f1.bass - f0.bass),
   f0.mid + alpha * (f1.mid - f0.mid),
   f0.treble + alpha * (f1.treble - f0.treble),
   f0.energy + alpha * (f1.energy - f0.energy)⟩

/-- `render_video.py:42-53` — the scan `for i in range(len(frames) - 1)`
returning at the first `i` with `frames[i].time ≤ t ≤ frames[i+1].time`,
falling through to the all-zero dict. -/
def findBracket (t : ℚ) : List FrameFeature → Feat
  | f0 :: f1 :: rest =>
    if f0.time ≤ t ∧ t ≤ f1.time then interpPair f0 f1 t
    else findBracket t (f1 :: rest)
  | _ => ⟨0, 0, 0, 0⟩

/-- `render_video.py:27-53` — `interpolate_features(analysis, t)`
(the Python function reads `analysis.frames`; the embedding takes the
frame list directly). -/
def interpolate_features (frames : List FrameFeature) (t : ℚ) : Feat :=
  match frames with
  | [] => ⟨0, 0, 0, 0⟩
  | f :: _ =>
    if t ≤ f.time then f.toFeat
    else if t ≥ (frames.getLastD f).time then (frames.getLastD f).toFeat
    else findBracket t frames

/-- `render_video.py:56-64` — `get_beat_pulse(analysis, t, window)`.
The Python default `window=0.06` is passed explicitly as `3/50` at every
call site in this file. -/
def get_beat_pulse (beats : List BeatInfo) (t window : ℚ) : ℚ :=
  beats.foldl
    (fun pulse beat =>
      let dt := |t - beat.time|
      if dt < window then max pulse (beat.strength * (1 - dt / window)) else pulse)
    0

/-- The contribution of a single beat to the pulse at time `t`:
`strength · (1 − |t − beat.time| / window)` inside the window, `0`
outside.  Used to state that `get_beat_pulse` is a maximum, not a sum. -/
def beatContribution (t window : ℚ) (beat : BeatInfo) : ℚ :=
  if |t - beat.time| < window then beat.strength * (1 - |t - beat.time| / window) else 0

/-- `render_video.py:67-77` — `get_current_section(analysis, t)`: first
section whose `[start, end]` contains `t`, defaulting to `"intro"`.
(The two `hasattr` branches in the source are syntactically identical;
pydantic models always carry the attributes tested.) -/
def get_current_section (sections : List SectionInfo) (t : ℚ) : String :=
  match sections.find? (fun s => decide (s.start ≤ t ∧ t ≤ s.«end»)) with
  | some s => s.type
  | none => "intro"

/-- `render_video.py:80-108` — `get_visual_state(analysis, t)`. -/
def get_visual_state (a : Analysis) (t : ℚ) : VisualStateAtTime :=
  let feat := interpolate_features a.frames t
  let pulse := get_beat_pulse a.beats t (3/50)
  let sect := get_current_section a.sections t
  let lyr := a.lyrics.find? (fun l => decide (l.start ≤ t ∧ t ≤ l.«end»))
  let sentiment := match lyr with | some l => l.sentiment | none => 0
  let lyric_energy := match lyr with | some l => l.intensity | none => feat.energy
  { time := t
    bass := feat.bass
    mid := feat.mid
    treble := feat.treble
    energy := feat.energy
    beat_pulse := pulse
    current_section := sect
    lyric_sentiment := sentiment
    lyric_energy := lyric_energy }

/-- Python `%` on floats with a positive modulus: `a - b * ⌊a / b⌋`. -/
def pymod (a b : ℚ) : ℚ := a - b * ⌊a / b⌋

/-- Python `int()` on a float: truncation toward zero. -/
def pyint (q : ℚ) : ℤ := if 0 ≤ q then ⌊q⌋ else -⌊-q⌋

/-- `render_video.py:111-131` — `hsv_to_rgb(h, s, v)`. -/
def hsv_to_rgb (h s v : ℚ) : ℤ × ℤ × ℤ :=
  let h := pymod h 360
  let c := v * s
  let x := c * (1 - |pymod (h / 60) 2 - 1|)
  let m := v - c
  let rgb : ℚ × ℚ × ℚ :=
    if 0 ≤ h ∧ h < 60 then (c, x, 0)
    else if 60 ≤ h ∧ h < 120 then (x, c, 0)
    else if 120 ≤ h ∧ h < 180 then (0, c, x)
    else if 180 ≤ h ∧ h < 240 then (0, x, c)
    else if 240 ≤ h ∧ h < 300 then (x, 0, c)
    else (c, 0, x)
  (pyint ((rgb.1 + m) * 255), pyint ((rgb.2.1 + m) * 255), pyint ((rgb.2.2 + m) * 255))

/-- Bundle of the transcendental library functions used by the particle
code (`math.sqrt`, `math.cos`, `math.sin`, `math.pi`); theorems quantify
over them. -/
structure Trig where
  sqrt : ℚ → ℚ
  cos : ℚ → ℚ
  sin : ℚ → ℚ
  pi : ℚ

/-- One particle record (`render_video.py:265-273`). -/
structure Particle where
  x : ℚ
  y : ℚ
  vx : ℚ
  vy : ℚ
  life : ℚ
  size : ℚ
  hue : ℚ
deriving Repr, DecidableEq

/-- One particle built by `ParticleSystem.init_particles`
(`render_video.py:260-273`); `k` is the cursor into the random stream
(seven draws per particle, in source order: angle, speed, x, y, life,
size, hue). -/
def initParticle (tg : Trig) (rng : ℕ → ℚ) (w h : ℚ) (k : ℕ) : Particle :=
  let angle := rng k * 2 * tg.pi
  let speed := rng (k + 1) * 2 + 1/2
  { x := rng (k + 2) * w
    y := rng (k + 3) * h
    vx := tg.cos angle * speed
    vy := tg.sin angle * speed
    life := rng (k + 4)
    size := rng (k + 5) * 3 + 1
    hue := rng (k + 6) }

/-- The particle list built by `init_particles`, threading the random
cursor. -/
def initParticles (tg : Trig) (rng : ℕ → ℚ) (w h : ℚ) : ℕ → ℕ → List Particle
  | 0, _ => []
  | n + 1, k => initParticle tg rng w h k :: initParticles tg rng w h n (k + 7)

/-- `render_video.py:275-323` — the body of `ParticleSystem.update` for
one particle.  Returns the updated particle and the advanced random
cursor (two draws for the treble jitter, two more on respawn). -/
def updateParticle (tg : Trig) (rng : ℕ → ℚ) (w h : ℚ)
    (st : VisualStateAtTime) (dt : ℚ) (p : Particle) (k : ℕ) : Particle × ℕ :=
  let cx := w / 2
  let cy := h / 2
  let dx := p.x - cx
  let dy := p.y - cy
  let dist := if dx ≠ 0 ∨ dy ≠ 0 then tg.sqrt (dx * dx + dy * dy) else 1
  let force := st.bass * (2/25)
  let vx1 := if dist > 0 then p.vx + dx / dist * force else p.vx
  let vy1 := if dist > 0 then p.vy + dy / dist * force else p.vy
  let jitter := st.treble * (1/2)
  let vx2 := vx1 + (rng k - 1/2) * jitter
  let vy2 := vy1 + (rng (k + 1) - 1/2) * jitter
  let swirl := st.mid * (3/100)
  let vx3 := vx2 * tg.cos swirl - vy2 * tg.sin swirl
  let vy3 := vx2 * tg.sin swirl + vy2 * tg.cos swirl
  let vx4 := vx3 * (49/50)
  let vy4 := vy3 * (49/50)
  let x1 := p.x + vx4 * dt * 60
  let y1 := p.y + vy4 * dt * 60
  let x2 := if x1 < 0 then w else x1
  let x3 := if x2 > w then 0 else x2
  let y2 := if y1 < 0 then h else y1
  let y3 := if y2 > h then 0 else y2
  let life1 := p.life - 1/500
  if life1 ≤ 0 then
    ({ x := rng (k + 2) * w, y := rng (k + 3) * h, vx := vx4, vy := vy4,
       life := 1, size := p.size, hue := p.hue }, k + 4)
  else
    ({ x := x3, y := y3, vx := vx4, vy := vy4,
       life := life1, size := p.size, hue := p.hue }, k + 2)

/-- The `for p in self.particles` loop of `ParticleSystem.update`,
threading the random cursor through the list. -/
def updateParticles (tg : Trig) (rng : ℕ → ℚ) (w h : ℚ)
    (st : VisualStateAtTime) (dt : ℚ) : List Particle → ℕ → List Particle × ℕ
  | [], k => ([], k)
  | p :: ps, k =>
    let r := updateParticle tg rng w h st dt p k
    let rest := updateParticles tg rng w h st dt ps r.2
    (r.1 :: rest.1, rest.2)

/-- `render_video.py:251-273` — `ParticleSystem`.  `seed` is the cursor
into the global numpy random stream (state that lives in numpy's global
RNG in the source). -/
structure PSystem where
  width : ℚ
  height : ℚ
  count : ℕ
  particles : List Particle
  seed : ℕ
deriving Repr, DecidableEq

/-- `ParticleSystem.__init__` followed by `init_particles`. -/
def PSystem.init (tg : Trig) (rng : ℕ → ℚ) (w h : ℚ) (count : ℕ) : PSystem :=
  { width := w, height := h, count := count,
    particles := initParticles tg rng w h count 0, seed := 7 * count }

/-- `ParticleSystem.update(state, dt)`. -/
def PSystem.update (tg : Trig) (rng : ℕ → ℚ) (S : PSystem)
    (st : VisualStateAtTime) (dt : ℚ) : PSystem :=
  let r := updateParticles tg rng S.width S.height st dt S.particles S.seed
  { S with particles := r.1, seed := r.2 }

/-- A sequence of `update` calls with arbitrary visual states and
timesteps, as driven by successive rendered frames. -/
def applyUpdates (tg : Trig) (rng : ℕ → ℚ) (S : PSystem) :
    List (VisualStateAtTime × ℚ) → PSystem
  | [] => S
  | r :: rs => applyUpdates tg rng (PSystem.update tg rng S r.1 r.2) rs

/-- `render_video.py:444-468` — `make_frame_factory(analysis, width,
height, mode)`.  The three drawing strategies (`draw_geometric_frame`,
`draw_particle_frame`, `draw_psychedelic_frame`) are heavy pixel-pushing
code over PIL images; they are abstracted here as parameters of an
arbitrary pixel-buffer type `F`, so every theorem about the dispatch
quantifies over all implementations of the three strategies.  The
returned function is `make_frame(t)`. -/
def make_frame_factory {F : Type}
    (drawGeo : VisualStateAtTime → ℕ → ℕ → ℚ → F)
    (drawPart : VisualStateAtTime → ℕ → ℕ → Option PSystem → ℚ → F)
    (drawPsy : VisualStateAtTime → ℕ → ℕ → ℚ → F)
    (tg : Trig) (rng : ℕ → ℚ)
    (a : Analysis) (width height : ℕ) (mode : String) : ℚ → F :=
  let particle_system : Option PSystem :=
    if mode = "particles" then some (PSystem.init tg rng width height 5000) else none
  fun t =>
    let state := get_visual_state a t
    if mode = "geometric" then drawGeo state width height t
    else if mode = "particles" then drawPart state width height particle_system t
    else if mode = "psychedelic" then drawPsy state width height t
    else drawGeo state width height t

/-- `np.mean` over a list (modelled as `0` on the empty list, where
numpy would produce NaN; no theorem depends on that value). -/
def meanQ (xs : List ℚ) : ℚ := xs.sum / xs.length

/-- `np.std` over a list: the square root of the mean squared deviation,
with the square root supplied as a parameter. -/
def stdQ (sqrtF : ℚ → ℚ) (xs : List ℚ) : ℚ :=
  sqrtF (meanQ (xs.map fun x => (x - meanQ xs) ^ 2))

/-- `np.convolve(a, v, mode='same')`: the centred slice, of length
`max |a| |v|`, of the full convolution. -/
def convolveSame (a v : List ℚ) : List ℚ :=
  let m := a.length
  let n := v.length
  let full := (List.range (m + n - 1)).map fun k =>
    ((List.range (k + 1)).map fun i => a.getD i 0 * v.getD (k - i) 0).sum
  (full.drop ((min m n - 1) / 2)).take (max m n)

/-- `np.searchsorted(xs, v)` (side `left`) on a sorted list: the number
of elements strictly below `v`. -/
def searchsorted (xs : List ℚ) (v : ℚ) : ℕ := (xs.takeWhile (· < v)).length

/-- Python slice `xs[a:b]`. -/
def sliceL (xs : List ℚ) (a b : ℕ) : List ℚ := (xs.drop a).take (b - a)

/-- `audio_analysis.py:240-245` — the per-sample lyric-density signal:
`np.zeros(len(times))`, then `+= 1` over `[searchsorted(times, l.start),
searchsorted(times, l.end))` for each lyric segment. -/
def lyricDensity (times : List ℚ) (lyrics : List LyricSegment) : List ℚ :=
  lyrics.foldl
    (fun d l =>
      let a := searchsorted times l.start
      let b := searchsorted times l.«end»
      d.mapIdx fun i x => if a ≤ i ∧ i < b then x + 1 else x)
    (List.replicate times.length 0)

/-- The distinct elements of a list in first-occurrence order. -/
def firstOccurrences : List String → List String
  | [] => []
  | x :: xs => x :: firstOccurrences (xs.filter (· ≠ x))
termination_by xs => xs.length
decreasing_by
  simp only [List.length_cons]
  exact Nat.lt_succ_of_le (List.length_filter_le _ _)

/-- `collections.Counter(xs).most_common(1)[0][0]` for a non-empty list,
`None` for an empty one: the most frequent element, ties broken by first
occurrence (Python's `Counter` preserves insertion order and
`most_common` sorts stably by descending count). -/
def mostCommon (xs : List String) : Option String :=
  (firstOccurrences xs).foldl
    (fun best c =>
      match best with
      | none => some c
      | some b => if xs.count c > xs.count b then some c else best)
    none

/-- `audio_analysis.py:260-277` — the ordered first-match window
classification rules of `detect_sections_enhanced`:  `we` is the window's
mean smoothed energy, `wd` its mean lyric density, `i` the window's start
index and `L = len(energy_smooth)`. -/
def classifySection (we high low wd : ℚ) (i L : ℕ) : String :=
  if we > high * (6/5) then "drop"
  else if we > high then
    if wd > 1/2 then "chorus" else "drop"
  else if we < low then
    if wd > 3/10 then "verse"
    else if i < L / 4 then "intro" else "bridge"
  else
    if wd > 2/5 then "verse" else "bridge"

/-- The state threaded through the window loop of
`detect_sections_enhanced`: the emitted sections, the running label and
the running section start. -/
structure LoopState where
  secs : List SectionInfo
  cur : String
  sstart : ℚ
deriving Repr, DecidableEq

/-- `audio_analysis.py:253-303` — one iteration of the window loop of
`detect_sections_enhanced` at window start index `i`. -/
def sectionStep (smooth density times : List ℚ) (duration : ℚ)
    (lyrics : List LyricSegment) (wsz : ℕ) (high low : ℚ)
    (st : LoopState) (i : ℕ) : LoopState :=
  let we := meanQ (sliceL smooth i (min (i + wsz) smooth.length))
  let wd := meanQ (sliceL density i (min (i + wsz) density.length))
  let t := times.getD i duration
  let ns := classifySection we high low wd i smooth.length
  if ns ≠ st.cur ∧ st.sstart < t - 2 then
    let se := meanQ (sliceL smooth (searchsorted times st.sstart) (searchsorted times t))
    let emo :=
      if lyrics ≠ [] then
        mostCommon ((lyrics.filter fun l =>
          decide (st.sstart ≤ l.start ∧ l.start < t)).map LyricSegment.emotion)
      else none
    ⟨st.secs ++ [⟨st.sstart, t, st.cur, se, emo⟩], ns, t⟩
  else st

/-- `audio_analysis.py:305-336` — the tail of `detect_sections_enhanced`
after the window loop: close the final open section at `duration` when
the running start lies before it, then repair by prepending an `intro`
section when no section was produced or the first one starts after
`1.0`. -/
def finishSections (smooth times : List ℚ) (duration : ℚ)
    (lyrics : List LyricSegment) (st : LoopState) : List SectionInfo :=
  let secs1 :=
    if st.sstart < duration then
      let se := meanQ (smooth.drop (searchsorted times st.sstart))
      let emo :=
        if lyrics ≠ [] then
          mostCommon ((lyrics.filter fun l => decide (st.sstart ≤ l.start)).map
            LyricSegment.emotion)
        else none
      st.secs ++ [⟨st.sstart, duration, st.cur, se, emo⟩]
    else st.secs
  match secs1.head? with
  | none => [⟨0, duration, "intro", 3/10, none⟩]
  | some s => if s.start > 1 then ⟨0, s.start, "intro", 3/10, none⟩ :: secs1 else secs1

/-- `audio_analysis.py:217-336` — `detect_sections_enhanced(frames,
beats, lyrics)`.  `beats` is accepted and ignored exactly as in the
source.  `sqrtF` is the square root inside `np.std`. -/
def detect_sections_enhanced (sqrtF : ℚ → ℚ) (frames : List FrameFeature)
    (beats : List BeatInfo) (lyrics : List LyricSegment) : List SectionInfo :=
  let _ := beats
  if frames = [] then []
  else
    let energy_values := frames.map FrameFeature.energy
    let times := frames.map FrameFeature.time
    let duration := times.getLastD 0
    let smooth := convolveSame energy_values (List.replicate 10 (1/10))
    let energy_mean := meanQ smooth
    let energy_std := stdQ sqrtF smooth
    let high := energy_mean + energy_std * (1/2)
    let low := energy_mean - energy_std * (1/2)
    let density := lyricDensity times lyrics
    let wsz := max 1 (smooth.length / 20)
    let idxs := (List.range ((smooth.length + wsz - 1) / wsz)).map (· * wsz)
    let st := idxs.foldl (sectionStep smooth density times duration lyrics wsz high low)
      ⟨[], "intro", 0⟩
    finishSections smooth times duration lyrics st

/-- Any `getLastD` of a non-empty list is an element of the list. -/
theorem getLastD_mem_of_ne_nil {α : Type} (l : List α) (d : α) (h : l ≠ []) :
    l.getLastD d ∈ l := by
  cases l with
  | nil => exact absurd rfl h
  | cons a t =>
    have := List.getLastD_mem_cons t a
    rw [List.getLastD_cons]
    rcases List.mem_cons.mp this with h' | h'
    · rw [h']; exact List.mem_cons_self a t
    · exact List.mem_cons_of_mem a h'

/-- In a `≤`-sorted list every element is at most the last element. -/
theorem sorted_le_getLastD (l : List ℚ) (d : ℚ)
    (hs : l.Pairwise (· ≤ ·)) : ∀ x ∈ l, x ≤ l.getLastD d := by
  induction l generalizing d with
  | nil => intro x hx; exact absurd hx (List.not_mem_nil x)
  | cons a t ih =>
    cases t with
    | nil =>
      intro x hx
      rw [List.getLastD_cons, List.getLastD_nil]
      rcases List.mem_cons.mp hx with rfl | hxt
      · exact le_refl x
      · exact absurd hxt (List.not_mem_nil x)
    | cons b u =>
      intro x hx
      rw [List.getLastD_cons]
      have hmem : (b :: u).getLastD a ∈ b :: u := getLastD_mem_of_ne_nil _ _ (by simp)
      rcases List.mem_cons.mp hx with rfl | hxt
      · exact (List.pairwise_cons.mp hs).1 _ hmem
      · exact ih a (List.pairwise_cons.mp hs).2 x hxt

/-- C5 — resolving the visual state against a timeline with no feature
samples, no beats, no sections and no lyrics returns all-zero spectral
fields, zero beat pulse, the `"intro"` section and zero lyric
sentiment/energy, for every query time, and (being a total function)
raises nothing. -/
theorem resolve_empty_timeline (d bpm t : ℚ) :
    get_visual_state ⟨d, bpm, [], [], [], []⟩ t =
      ⟨t, 0, 0, 0, 0, 0, "intro", 0, 0⟩ := rfl

/-- C8 — resolving the visual state twice at the same time against the
same immutable timeline yields identical values: `get_visual_state` is a
pure function of its inputs (the Python function only reads `analysis`,
which the embedding reflects by being a function with no state). -/
theorem resolve_idempotent (a : Analysis) (t : ℚ) :
    get_visual_state a t = get_visual_state a t := rfl

/-- C3 — for a non-empty, strictly time-ordered frame list,
interpolating at any `t` at or before the first sample's time returns
exactly the first sample's bass/mid/treble/energy, and at any `t` at or
after the last sample's time, exactly the last sample's. -/
theorem interpolate_boundary_clamp (f : FrameFeature) (rest : List FrameFeature) (t : ℚ)
    (hsort : (f :: rest).Pairwise (fun a b => a.time < b.time)) :
    (t ≤ f.time → interpolate_features (f :: rest) t = f.toFeat) ∧
    (((f :: rest).getLastD f).time ≤ t →
      interpolate_features (f :: rest) t = ((f :: rest).getLastD f).toFeat) := by
  constructor
  · intro h
    simp only [interpolate_features]
    rw [if_pos h]
  · intro h
    cases rest with
    | nil =>
      simp only [List.getLastD_cons, List.getLastD_nil] at h ⊢
      simp only [interpolate_features]
      by_cases h1 : t ≤ f.time
      · rw [if_pos h1]
      · rw [if_neg h1, if_pos (by simpa using h)]
        simp
    | cons r rs =>
      have hlmem : (f :: r :: rs).getLastD f ∈ r :: rs := by
        rw [List.getLastD_cons]
        exact getLastD_mem_of_ne_nil _ _ (by simp)
      have hflt : f.time < ((f :: r :: rs).getLastD f).time :=
        (List.pairwise_cons.mp hsort).1 _ hlmem
      simp only [interpolate_features]
      rw [if_neg (by push_neg; linarith), if_pos (by simpa using h)]

/-- The accumulator form of `get_beat_pulse` agrees with folding `max`
over the per-beat contributions, for any non-negative accumulator. -/
theorem get_beat_pulse_foldl_max (t window : ℚ) :
    ∀ (beats : List BeatInfo) (acc : ℚ), 0 ≤ acc →
      beats.foldl
        (fun pulse beat =>
          let dt := |t - beat.time|
          if dt < window then max pulse (beat.strength * (1 - dt / window)) else pulse)
        acc
      = (beats.map (beatContribution t window)).foldl max acc := by
  intro beats
  induction beats with
  | nil => intro acc _; rfl
  | cons b bs ih =>
    intro acc hacc
    simp only [List.foldl_cons, List.map_cons, beatContribution]
    by_cases hdt : |t - b.time| < window
    · rw [if_pos hdt, if_pos hdt]
      exact ih _ (le_trans hacc (le_max_left _ _))
    · rw [if_neg hdt, if_neg hdt, max_eq_left hacc]
      exact ih _ hacc

/-- C2 — beat-pulse decay for a single beat at time `b` with
non-negative strength `s`: the pulse equals `s` at `t = b`, equals `0`
whenever `|t − b| ≥ 0.06`, and is non-increasing in `|t − b|` inside the
window; and for an arbitrary beat list the pulse is the fold of `max`
over the individual beat contributions (never their sum). -/
theorem beat_pulse_decay (b s : ℚ) (hs : 0 ≤ s) :
    (get_beat_pulse [⟨b, s⟩] b (3/50) = s) ∧
    (∀ t, 3/50 ≤ |t - b| → get_beat_pulse [⟨b, s⟩] t (3/50) = 0) ∧
    (∀ t₁ t₂, |t₁ - b| ≤ |t₂ - b| → |t₂ - b| < 3/50 →
      get_beat_pulse [⟨b, s⟩] t₂ (3/50) ≤ get_beat_pulse [⟨b, s⟩] t₁ (3/50)) ∧
    (∀ (beats : List BeatInfo) (t : ℚ),
      get_beat_pulse beats t (3/50) =
        (beats.map (beatContribution t (3/50))).foldl max 0) := by
  refine ⟨?_, ?_, ?_, ?_⟩
  · simp only [get_beat_pulse, List.foldl_cons, List.foldl_nil, sub_self, abs_zero]
    rw [if_pos (by norm_num)]
    simp [max_eq_right hs]
  · intro t h
    simp only [get_beat_pulse, List.foldl_cons, List.foldl_nil]
    rw [if_neg (not_lt.mpr h)]
  · intro t₁ t₂ h12 h2
    have h1 : |t₁ - b| < 3/50 := lt_of_le_of_lt h12 h2
    simp only [get_beat_pulse, List.foldl_cons, List.foldl_nil]
    rw [if_pos h1, if_pos h2]
    have hmono : s * (1 - |t₂ - b| / (3/50)) ≤ s * (1 - |t₁ - b| / (3/50)) := by
      apply mul_le_mul_of_nonneg_left _ hs
      have : |t₁ - b| / (3/50) ≤ |t₂ - b| / (3/50) := by
        apply div_le_div_of_nonneg_right h12 (by norm_num)
      linarith
    exact max_le_max le_rfl hmono
  · intro beats t
    exact get_beat_pulse_foldl_max t (3/50) beats 0 le_rfl

/-- Witness for C3 at a concrete two-sample timeline. -/
theorem interpolate_boundary_clamp_witness :
    ((⟨0, 1, 2, 3, 4⟩ : FrameFeature) :: [⟨10, 5, 6, 7, 8⟩]).Pairwise
        (fun a b => a.time < b.time) ∧
      ((-1 : ℚ) ≤ (0 : ℚ) →
        interpolate_features [⟨0, 1, 2, 3, 4⟩, ⟨10, 5, 6, 7, 8⟩] (-1) =
          FrameFeature.toFeat ⟨0, 1, 2, 3, 4⟩) ∧
      ((([⟨0, 1, 2, 3, 4⟩, ⟨10, 5, 6, 7, 8⟩] : List FrameFeature).getLastD
            ⟨0, 1, 2, 3, 4⟩).time ≤ (-1 : ℚ) →
        interpolate_features [⟨0, 1, 2, 3, 4⟩, ⟨10, 5, 6, 7, 8⟩] (-1) =
          (([⟨0, 1, 2, 3, 4⟩, ⟨10, 5, 6, 7, 8⟩] : List FrameFeature).getLastD
            ⟨0, 1, 2, 3, 4⟩).toFeat) :=
  ⟨by decide, (interpolate_boundary_clamp ⟨0, 1, 2, 3, 4⟩ [⟨10, 5, 6, 7, 8⟩] (-1)
    (by decide)).1, (interpolate_boundary_clamp ⟨0, 1, 2, 3, 4⟩ [⟨10, 5, 6, 7, 8⟩] (-1)
    (by decide)).2⟩

/-- Witness for C2 at a concrete beat. -/
theorem beat_pulse_decay_witness :
    (0 : ℚ) ≤ 1 ∧ get_beat_pulse [⟨2, 1⟩] 2 (3/50) = 1 :=
  ⟨by norm_num, (beat_pulse_decay 2 1 (by norm_num)).1⟩

/-- `getLastD` of a non-empty list is its last element. -/
theorem getLastD_eq_getLast {α : Type} (l : List α) (d : α) (h : l ≠ []) :
    l.getLastD d = l.getLast h := by
  rw [List.getLastD_eq_getLast?, List.getLast?_eq_getLast l h]
  rfl


/-- The scanning loop of `interpolate_features` locates a bracketing
pair whenever the query time lies between the head's time and the last
element's time, and returns its guarded linear interpolation. -/
theorem findBracket_spec (t : ℚ) : ∀ (f0 : FrameFeature) (rest : List FrameFeature),
    (f0 :: rest).Pairwise (fun a b => a.time ≤ b.time) →
    f0.time ≤ t → t < ((f0 :: rest).getLastD f0).time →
    ∃ pre f1 f2 suf, f0 :: rest = pre ++ f1 :: f2 :: suf ∧ f1.time ≤ t ∧ t ≤ f2.time ∧
      findBracket t (f0 :: rest) = interpPair f1 f2 t := by
  intro f0 rest
  induction rest generalizing f0 with
  | nil =>
    intro _ hhead hlast
    rw [List.getLastD_cons, List.getLastD_nil] at hlast
    exact absurd hhead (not_le.mpr hlast)
  | cons f1 rs ih =>
    intro hsort hhead hlast
    by_cases hbr : f0.time ≤ t ∧ t ≤ f1.time
    · refine ⟨[], f0, f1, rs, rfl, hbr.1, hbr.2, ?_⟩
      simp only [findBracket]
      rw [if_pos hbr]
    · have hf1 : f1.time < t := by
        by_contra hle
        push_neg at hle
        exact hbr ⟨hhead, hle⟩
      have hlast' : t < ((f1 :: rs).getLastD f1).time := by
        rw [List.getLastD_cons] at hlast ⊢
        rwa [List.getLastD_cons] at hlast
      obtain ⟨pre, a, b, suf, heq, h1, h2, heval⟩ :=
        ih f1 (List.pairwise_cons.mp hsort).2 (le_of_lt hf1) hlast'
      refine ⟨f0 :: pre, a, b, suf, ?_, h1, h2, ?_⟩
      · rw [List.cons_append, ← heq]
      · simp only [findBracket]
        rw [if_neg hbr]
        exact heval

/-- C9 — for every query time strictly between the first and last sample
times of a time-sorted frame list, `interpolate_features` returns the
linear interpolation over a bracketing pair, with
`alpha = (t − f0.time) / (f1.time − f0.time)` used only when the bracket
has positive width (so the denominator of the division is non-zero) and
`alpha = 0` (the first sample's values) when the bracket has zero
width. -/
theorem interpolation_no_zero_division (frames : List FrameFeature) (t : ℚ)
    (hsort : frames.Pairwise (fun a b => a.time ≤ b.time))
    (hne : frames ≠ [])
    (h1 : (frames.head hne).time < t)
    (h2 : t < (frames.getLast hne).time) :
    ∃ pre f0 f1 suf, frames = pre ++ f0 :: f1 :: suf ∧ f0.time ≤ t ∧ t ≤ f1.time ∧
      interpolate_features frames t = interpPair f0 f1 t ∧
      (f0.time < f1.time →
        f1.time - f0.time ≠ 0 ∧
        interpPair f0 f1 t =
          ⟨f0.bass + (t - f0.time) / (f1.time - f0.time) * (f1.bass - f0.bass),
           f0.mid + (t - f0.time) / (f1.time - f0.time) * (f1.mid - f0.mid),
           f0.treble + (t - f0.time) / (f1.time - f0.time) * (f1.treble - f0.treble),
           f0.energy + (t - f0.time) / (f1.time - f0.time) * (f1.energy - f0.energy)⟩) ∧
      (¬ f0.time < f1.time → interpPair f0 f1 t = f0.toFeat) := by
  cases frames with
  | nil => exact absurd rfl hne
  | cons f rest =>
    have hhead : f.time < t := h1
    have hlastD : ((f :: rest).getLastD f) = (f :: rest).getLast hne :=
      getLastD_eq_getLast _ _ hne
    obtain ⟨pre, f0, f1, suf, heq, hb1, hb2, heval⟩ :=
      findBracket_spec t f rest hsort (le_of_lt hhead) (by rw [hlastD]; exact h2)
    refine ⟨pre, f0, f1, suf, heq, hb1, hb2, ?_, ?_, ?_⟩
    · simp only [interpolate_features]
      rw [if_neg (not_le.mpr hhead), if_neg (by rw [hlastD]; exact not_le.mpr h2)]
      exact heval
    · intro hlt
      refine ⟨sub_ne_zero.mpr (ne_of_gt hlt), ?_⟩
      simp only [interpPair]
      rw [if_pos hlt]
    · intro hnlt
      simp only [interpPair]
      rw [if_neg hnlt]
      simp [FrameFeature.toFeat]

/-- Witness for C9 at a concrete two-sample timeline and `t = 1`. -/
theorem interpolation_no_zero_division_witness :
    ([⟨0, 0, 0, 0, 0⟩, ⟨2, 1, 1, 1, 1⟩] : List FrameFeature).Pairwise
        (fun a b => a.time ≤ b.time) ∧
    ∃ pre f0 f1 suf,
      ([⟨0, 0, 0, 0, 0⟩, ⟨2, 1, 1, 1, 1⟩] : List FrameFeature) = pre ++ f0 :: f1 :: suf ∧
      f0.time ≤ 1 ∧ (1 : ℚ) ≤ f1.time ∧
      interpolate_features [⟨0, 0, 0, 0, 0⟩, ⟨2, 1, 1, 1, 1⟩] 1 = interpPair f0 f1 1 ∧
      (f0.time < f1.time →
        f1.time - f0.time ≠ 0 ∧
        interpPair f0 f1 1 =
          ⟨f0.bass + (1 - f0.time) / (f1.time - f0.time) * (f1.bass - f0.bass),
           f0.mid + (1 - f0.time) / (f1.time - f0.time) * (f1.mid - f0.mid),
           f0.treble + (1 - f0.time) / (f1.time - f0.time) * (f1.treble - f0.treble),
           f0.energy + (1 - f0.time) / (f1.time - f0.time) * (f1.energy - f0.energy)⟩) ∧
      (¬ f0.time < f1.time → interpPair f0 f1 1 = f0.toFeat) :=
  ⟨by decide,
    interpolation_no_zero_division [⟨0, 0, 0, 0, 0⟩, ⟨2, 1, 1, 1, 1⟩] 1
      (by decide) (by decide) (by decide) (by decide)⟩

/-- C6 — the window classification of the segmenter follows the ordered
first-match rules: energy above `1.2 × high` gives `drop`; otherwise
energy above `high` gives `chorus` when lyric density exceeds `0.5` and
`drop` when not; otherwise energy below `low` gives `verse` when lyric
density exceeds `0.3`, and when not gives `intro` for a window in the
first quarter of the sample indices and `bridge` otherwise; otherwise
(mid energy) `verse` when lyric density exceeds `0.4`, else `bridge`. -/
theorem section_rules_first_match (we high low wd : ℚ) (i L : ℕ) :
    (high * (6/5) < we → classifySection we high low wd i L = "drop") ∧
    (we ≤ high * (6/5) → high < we → 1/2 < wd →
      classifySection we high low wd i L = "chorus") ∧
    (we ≤ high * (6/5) → high < we → wd ≤ 1/2 →
      classifySection we high low wd i L = "drop") ∧
    (we ≤ high * (6/5) → we ≤ high → we < low → 3/10 < wd →
      classifySection we high low wd i L = "verse") ∧
    (we ≤ high * (6/5) → we ≤ high → we < low → wd ≤ 3/10 → i < L / 4 →
      classifySection we high low wd i L = "intro") ∧
    (we ≤ high * (6/5) → we ≤ high → we < low → wd ≤ 3/10 → ¬ i < L / 4 →
      classifySection we high low wd i L = "bridge") ∧
    (we ≤ high * (6/5) → we ≤ high → low ≤ we → 2/5 < wd →
      classifySection we high low wd i L = "verse") ∧
    (we ≤ high * (6/5) → we ≤ high → low ≤ we → wd ≤ 2/5 →
      classifySection we high low wd i L = "bridge") := by
  refine ⟨?_, ?_, ?_, ?_, ?_, ?_, ?_, ?_⟩
  · intro h
    simp only [classifySection]
    rw [if_pos h]
  · intro h0 h1 h2
    simp only [classifySection]
    rw [if_neg (not_lt.mpr h0), if_pos h1, if_pos h2]
  · intro h0 h1 h2
    simp only [classifySection]
    rw [if_neg (not_lt.mpr h0), if_pos h1, if_neg (not_lt.mpr h2)]
  · intro h0 h1 h2 h3
    simp only [classifySection]
    rw [if_neg (not_lt.mpr h0), if_neg (not_lt.mpr h1), if_pos h2, if_pos h3]
  · intro h0 h1 h2 h3 h4
    simp only [classifySection]
    rw [if_neg (not_lt.mpr h0), if_neg (not_lt.mpr h1), if_pos h2,
      if_neg (not_lt.mpr h3), if_pos h4]
  · intro h0 h1 h2 h3 h4
    simp only [classifySection]
    rw [if_neg (not_lt.mpr h0), if_neg (not_lt.mpr h1), if_pos h2,
      if_neg (not_lt.mpr h3), if_neg h4]
  · intro h0 h1 h2 h3
    simp only [classifySection]
    rw [if_neg (not_lt.mpr h0), if_neg (not_lt.mpr h1), if_neg (not_lt.mpr h2), if_pos h3]
  · intro h0 h1 h2 h3
    simp only [classifySection]
    rw [if_neg (not_lt.mpr h0), if_neg (not_lt.mpr h1), if_neg (not_lt.mpr h2),
      if_neg (not_lt.mpr h3)]

/-- Witness for C6: a high-energy, lyric-dense window classifies as
`chorus`, and a quiet early window classifies as `intro`. -/
theorem section_rules_first_match_witness :
    classifySection 11 10 2 1 0 100 = "chorus" ∧
    classifySection 1 10 2 0 3 100 = "intro" :=
  ⟨(section_rules_first_match 11 10 2 1 0 100).2.1 (by norm_num) (by norm_num)
      (by norm_num),
    (section_rules_first_match 1 10 2 0 3 100).2.2.2.2.1 (by norm_num) (by norm_num)
      (by norm_num) (by norm_num) (by norm_num)⟩

/-- C7 — any visual-mode selector other than `"geometric"`,
`"particles"` and `"psychedelic"` makes the frame factory produce, at
every time, exactly the frame the geometric mode would produce for the
same analysis, dimensions and time — for every implementation of the
three drawing strategies. -/
theorem unknown_mode_falls_back {F : Type}
    (drawGeo drawPsy : VisualStateAtTime → ℕ → ℕ → ℚ → F)
    (drawPart : VisualStateAtTime → ℕ → ℕ → Option PSystem → ℚ → F)
    (tg : Trig) (rng : ℕ → ℚ) (a : Analysis) (width height : ℕ) (mode : String)
    (hmode : mode ∉ (["geometric", "particles", "psychedelic"] : List String)) (t : ℚ) :
    make_frame_factory drawGeo drawPart drawPsy tg rng a width height mode t =
      make_frame_factory drawGeo drawPart drawPsy tg rng a width height "geometric" t := by
  have h1 : mode ≠ "geometric" := by intro h; exact hmode (by rw [h]; simp)
  have h2 : mode ≠ "particles" := by intro h; exact hmode (by rw [h]; simp)
  have h3 : mode ≠ "psychedelic" := by intro h; exact hmode (by rw [h]; simp)
  simp only [make_frame_factory]
  rw [if_neg h1, if_neg h2, if_neg h3]
  simp

/-- Witness for C7: the `"threeD"` selector (accepted by the request
model but unknown to the renderer) falls back to the geometric frame. -/
theorem unknown_mode_falls_back_witness :
    ("threeD" : String) ∉ (["geometric", "particles", "psychedelic"] : List String) ∧
    make_frame_factory (fun _ _ _ t => t) (fun _ _ _ _ _ => 0) (fun _ _ _ _ => 1)
        ⟨fun _ => 0, fun _ => 1, fun _ => 0, 0⟩ (fun _ => 0)
        ⟨10, 120, [], [], [], []⟩ 640 360 "threeD" 5 =
      make_frame_factory (fun _ _ _ t => t) (fun _ _ _ _ _ => 0) (fun _ _ _ _ => 1)
        ⟨fun _ => 0, fun _ => 1, fun _ => 0, 0⟩ (fun _ => 0)
        ⟨10, 120, [], [], [], []⟩ 640 360 "geometric" 5 :=
  ⟨by decide,
    unknown_mode_falls_back (fun _ _ _ t => t) (fun _ _ _ _ => 1) (fun _ _ _ _ _ => 0)
      ⟨fun _ => 0, fun _ => 1, fun _ => 0, 0⟩ (fun _ => 0)
      ⟨10, 120, [], [], [], []⟩ 640 360 "threeD" (by decide) 5⟩

/-- Python float `%` with a positive modulus is non-negative. -/
theorem pymod_nonneg (a b : ℚ) (hb : 0 < b) : 0 ≤ pymod a b := by
  unfold pymod
  have h1 : (⌊a / b⌋ : ℚ) ≤ a / b := Int.floor_le _
  have h2 : b * (⌊a / b⌋ : ℚ) ≤ b * (a / b) := mul_le_mul_of_nonneg_left h1 hb.le
  have h3 : b * (a / b) = a := by field_simp
  linarith

/-- Python float `%` with a positive modulus is below the modulus. -/
theorem pymod_lt (a b : ℚ) (hb : 0 < b) : pymod a b < b := by
  unfold pymod
  have h1 : a / b < ⌊a / b⌋ + 1 := Int.lt_floor_add_one _
  have h2 : b * (a / b) < b * ((⌊a / b⌋ : ℚ) + 1) := mul_lt_mul_of_pos_left h1 hb
  have h3 : b * (a / b) = a := by field_simp
  have h4 : b * ((⌊a / b⌋ : ℚ) + 1) = b * ⌊a / b⌋ + b := by ring
  linarith

/-- `int()` of a value in `[0, 255]` lies in `[0, 255]`. -/
theorem pyint_bounds (q : ℚ) (h0 : 0 ≤ q) (h255 : q ≤ 255) :
    0 ≤ pyint q ∧ pyint q ≤ 255 := by
  unfold pyint
  rw [if_pos h0]
  refine ⟨Int.floor_nonneg.mpr h0, ?_⟩
  have h := Int.floor_le_floor h255
  simpa using h

/-- C10 — for every hue (any rational, reduced modulo 360 internally)
and saturation and value in `[0, 1]`, `hsv_to_rgb` returns a triple of
integers each within `[0, 255]`. -/
theorem hsv_to_rgb_bounds (h s v : ℚ) (hs0 : 0 ≤ s) (hs1 : s ≤ 1)
    (hv0 : 0 ≤ v) (hv1 : v ≤ 1) :
    0 ≤ (hsv_to_rgb h s v).1 ∧ (hsv_to_rgb h s v).1 ≤ 255 ∧
    0 ≤ (hsv_to_rgb h s v).2.1 ∧ (hsv_to_rgb h s v).2.1 ≤ 255 ∧
    0 ≤ (hsv_to_rgb h s v).2.2 ∧ (hsv_to_rgb h s v).2.2 ≤ 255 := by
  have hc0 : 0 ≤ v * s := mul_nonneg hv0 hs0
  have hcv : v * s ≤ v := mul_le_of_le_one_right hv0 hs1
  have hp0 : 0 ≤ pymod (pymod h 360 / 60) 2 := pymod_nonneg _ _ (by norm_num)
  have hp2 : pymod (pymod h 360 / 60) 2 < 2 := pymod_lt _ _ (by norm_num)
  have hA0 : 0 ≤ |pymod (pymod h 360 / 60) 2 - 1| := abs_nonneg _
  have hA1 : |pymod (pymod h 360 / 60) 2 - 1| ≤ 1 := abs_le.mpr ⟨by linarith, by linarith⟩
  have hx0 : 0 ≤ v * s * (1 - |pymod (pymod h 360 / 60) 2 - 1|) :=
    mul_nonneg hc0 (by linarith)
  have hxc : v * s * (1 - |pymod (pymod h 360 / 60) 2 - 1|) ≤ v * s :=
    mul_le_of_le_one_right hc0 (by linarith)
  simp only [hsv_to_rgb]
  split_ifs <;> dsimp only <;>
    exact ⟨(pyint_bounds _ (by linarith) (by linarith)).1,
      (pyint_bounds _ (by linarith) (by linarith)).2,
      (pyint_bounds _ (by linarith) (by linarith)).1,
      (pyint_bounds _ (by linarith) (by linarith)).2,
      (pyint_bounds _ (by linarith) (by linarith)).1,
      (pyint_bounds _ (by linarith) (by linarith)).2⟩

/-- Witness for C10 at a hue outside `[0, 360)` and full saturation and
value. -/
theorem hsv_to_rgb_bounds_witness :
    0 ≤ (hsv_to_rgb 400 1 1).1 ∧ (hsv_to_rgb 400 1 1).1 ≤ 255 ∧
    0 ≤ (hsv_to_rgb 400 1 1).2.1 ∧ (hsv_to_rgb 400 1 1).2.1 ≤ 255 ∧
    0 ≤ (hsv_to_rgb 400 1 1).2.2 ∧ (hsv_to_rgb 400 1 1).2.2 ≤ 255 :=
  hsv_to_rgb_bounds 400 1 1 (by norm_num) (by norm_num) (by norm_num) (by norm_num)

/-- A particle position inside the closed canvas box. -/
def inBox (w h : ℚ) (p : Particle) : Prop :=
  0 ≤ p.x ∧ p.x ≤ w ∧ 0 ≤ p.y ∧ p.y ≤ h

/-- The sequential wraparound of `ParticleSystem.update`
(`render_video.py:308-316`) lands any coordinate in `[0, w]`. -/
theorem wrap_mem (w z : ℚ) (hw : 0 ≤ w) :
    0 ≤ (if (if z < 0 then w else z) > w then 0 else (if z < 0 then w else z)) ∧
    (if (if z < 0 then w else z) > w then 0 else (if z < 0 then w else z)) ≤ w := by
  split_ifs <;> constructor <;> linarith

/-- One particle update lands the particle in the closed canvas box
(either through the wraparound or through a respawn draw). -/
theorem updateParticle_inBox (tg : Trig) (rng : ℕ → ℚ)
    (hrng : ∀ n, 0 ≤ rng n ∧ rng n < 1) (w h : ℚ) (hw : 0 ≤ w) (hh : 0 ≤ h)
    (st : VisualStateAtTime) (dt : ℚ) (p : Particle) (k : ℕ) :
    inBox w h (updateParticle tg rng w h st dt p k).1 := by
  simp only [updateParticle]
  by_cases hl : p.life - 1/500 ≤ 0
  · rw [if_pos hl]
    exact ⟨mul_nonneg (hrng _).1 hw, mul_le_of_le_one_left hw (le_of_lt (hrng _).2),
      mul_nonneg (hrng _).1 hh, mul_le_of_le_one_left hh (le_of_lt (hrng _).2)⟩
  · rw [if_neg hl]
    exact ⟨(wrap_mem w _ hw).1, (wrap_mem w _ hw).2,
      (wrap_mem h _ hh).1, (wrap_mem h _ hh).2⟩

/-- The per-particle update loop preserves the particle count. -/
theorem updateParticles_length (tg : Trig) (rng : ℕ → ℚ) (w h : ℚ)
    (st : VisualStateAtTime) (dt : ℚ) :
    ∀ (ps : List Particle) (k : ℕ),
      ((updateParticles tg rng w h st dt ps k).1).length = ps.length := by
  intro ps
  induction ps with
  | nil => intro k; rfl
  | cons p rest ih =>
    intro k
    simp only [updateParticles, List.length_cons]
    rw [ih]

/-- Every particle emitted by the update loop lies in the closed box. -/
theorem updateParticles_inBox (tg : Trig) (rng : ℕ → ℚ)
    (hrng : ∀ n, 0 ≤ rng n ∧ rng n < 1) (w h : ℚ) (hw : 0 ≤ w) (hh : 0 ≤ h)
    (st : VisualStateAtTime) (dt : ℚ) :
    ∀ (ps : List Particle) (k : ℕ),
      ∀ p ∈ (updateParticles tg rng w h st dt ps k).1, inBox w h p := by
  intro ps
  induction ps with
  | nil => intro k p hp; exact absurd hp (List.not_mem_nil p)
  | cons q rest ih =>
    intro k p hp
    simp only [updateParticles] at hp
    rcases List.mem_cons.mp hp with rfl | hp'
    · exact updateParticle_inBox tg rng hrng w h hw hh st dt q k
    · exact ih _ p hp'

/-- `init_particles` creates exactly `count` particles. -/
theorem initParticles_length (tg : Trig) (rng : ℕ → ℚ) (w h : ℚ) :
    ∀ (n k : ℕ), (initParticles tg rng w h n k).length = n := by
  intro n
  induction n with
  | zero => intro k; rfl
  | succ m ih =>
    intro k
    simp only [initParticles, List.length_cons]
    rw [ih]

/-- Every particle created by `init_particles` lies in the closed box. -/
theorem initParticles_inBox (tg : Trig) (rng : ℕ → ℚ)
    (hrng : ∀ n, 0 ≤ rng n ∧ rng n < 1) (w h : ℚ) (hw : 0 ≤ w) (hh : 0 ≤ h) :
    ∀ (n k : ℕ), ∀ p ∈ initParticles tg rng w h n k, inBox w h p := by
  intro n
  induction n with
  | zero => intro k p hp; exact absurd hp (List.not_mem_nil p)
  | succ m ih =>
    intro k p hp
    rcases List.mem_cons.mp hp with rfl | hp'
    · exact ⟨mul_nonneg (hrng _).1 hw, mul_le_of_le_one_left hw (le_of_lt (hrng _).2),
        mul_nonneg (hrng _).1 hh, mul_le_of_le_one_left hh (le_of_lt (hrng _).2)⟩
    · exact ih _ p hp'

/-- Iterated updates preserve the canvas, the particle count, and the
closed box. -/
theorem applyUpdates_spec (tg : Trig) (rng : ℕ → ℚ)
    (hrng : ∀ n, 0 ≤ rng n ∧ rng n < 1) :
    ∀ (runs : List (VisualStateAtTime × ℚ)) (S : PSystem),
      0 ≤ S.width → 0 ≤ S.height → (∀ p ∈ S.particles, inBox S.width S.height p) →
      (applyUpdates tg rng S runs).width = S.width ∧
      (applyUpdates tg rng S runs).height = S.height ∧
      (applyUpdates tg rng S runs).particles.length = S.particles.length ∧
      ∀ p ∈ (applyUpdates tg rng S runs).particles, inBox S.width S.height p := by
  intro runs
  induction runs with
  | nil => intro S _ _ hbox; exact ⟨rfl, rfl, rfl, hbox⟩
  | cons r rest ih =>
    intro S hw hh hbox
    have hstep := ih (PSystem.update tg rng S r.1 r.2) hw hh
      (updateParticles_inBox tg rng hrng S.width S.height hw hh r.1 r.2 S.particles S.seed)
    simp only [applyUpdates]
    refine ⟨hstep.1, hstep.2.1, ?_, hstep.2.2.2⟩
    rw [hstep.2.2.1]
    exact updateParticles_length tg rng S.width S.height r.1 r.2 S.particles S.seed

/-- C4 (amended) — after any number of update steps of the particle
simulator initialized with 5000 particles, for any sequence of visual
states and timesteps and any random draws in `[0, 1)`, the particle
count remains exactly 5000 and every particle's position stays within
the closed box `[0, width] × [0, height]`.  (The half-open box of the
original claim fails: the wraparound `if x < 0: x = width` parks a
particle exactly at `x = width`; see the counterexample below.) -/
theorem particle_count_and_closed_box (tg : Trig) (rng : ℕ → ℚ)
    (hrng : ∀ n, 0 ≤ rng n ∧ rng n < 1) (w h : ℚ) (hw : 0 ≤ w) (hh : 0 ≤ h)
    (runs : List (VisualStateAtTime × ℚ)) :
    (applyUpdates tg rng (PSystem.init tg rng w h 5000) runs).particles.length = 5000 ∧
    ∀ p ∈ (applyUpdates tg rng (PSystem.init tg rng w h 5000) runs).particles,
      0 ≤ p.x ∧ p.x ≤ w ∧ 0 ≤ p.y ∧ p.y ≤ h := by
  have hbox : ∀ p ∈ (PSystem.init tg rng w h 5000).particles, inBox w h p :=
    initParticles_inBox tg rng hrng w h hw hh 5000 0
  have hspec := applyUpdates_spec tg rng hrng runs (PSystem.init tg rng w h 5000) hw hh hbox
  refine ⟨?_, hspec.2.2.2⟩
  rw [hspec.2.2.1]
  exact initParticles_length tg rng w h 5000 0

/-- Witness for the amended C4 at a concrete canvas, random stream and
run sequence. -/
theorem particle_count_and_closed_box_witness :
    (∀ n : ℕ, 0 ≤ ((fun _ => 1/4 : ℕ → ℚ)) n ∧ ((fun _ => 1/4 : ℕ → ℚ)) n < 1) ∧
    (applyUpdates ⟨fun _ => 0, fun _ => 1, fun _ => 0, 0⟩ (fun _ => 1/4)
        (PSystem.init ⟨fun _ => 0, fun _ => 1, fun _ => 0, 0⟩ (fun _ => 1/4) 4 4 5000)
        [(⟨0, 0, 0, 1, 0, 0, "intro", 0, 0⟩, 1)]).particles.length = 5000 ∧
    ∀ p ∈ (applyUpdates ⟨fun _ => 0, fun _ => 1, fun _ => 0, 0⟩ (fun _ => 1/4)
        (PSystem.init ⟨fun _ => 0, fun _ => 1, fun _ => 0, 0⟩ (fun _ => 1/4) 4 4 5000)
        [(⟨0, 0, 0, 1, 0, 0, "intro", 0, 0⟩, 1)]).particles,
      0 ≤ p.x ∧ p.x ≤ 4 ∧ 0 ≤ p.y ∧ p.y ≤ 4 :=
  ⟨fun _ => ⟨by norm_num, by norm_num⟩,
    particle_count_and_closed_box ⟨fun _ => 0, fun _ => 1, fun _ => 0, 0⟩ (fun _ => 1/4)
      (fun _ => ⟨by norm_num, by norm_num⟩) 4 4 (by norm_num) (by norm_num)
      [(⟨0, 0, 0, 1, 0, 0, "intro", 0, 0⟩, 1)]⟩

/-- Transcendental-function bundle for the concrete counterexample run.
In this run `cos`/`sin` are only ever applied to `0` (the init angle is
`rand · 2 · π` with the `π` slot set to `0`, and the swirl angle is
`mid · 0.03 = 0`), where the real `cos`/`sin` are `1`/`0`; the `sqrt`
slot's output is only ever multiplied by the zero bass force, so its
value is immaterial. -/
def tgC : Trig := ⟨fun _ => 0, fun _ => 1, fun _ => 0, 0⟩

/-- A constant random stream drawing `1/4` (a legal numpy draw). -/
def rngC : ℕ → ℚ := fun _ => 1/4

/-- A visual state with full treble and all other fields zero. -/
def stC : VisualStateAtTime := ⟨0, 0, 0, 1, 0, 0, "intro", 0, 0⟩

/-- The particle produced by `init_particles` under `tgC`/`rngC` on a
4×4 canvas. -/
def p0C : Particle := ⟨1, 1, 1, 0, 1/4, 7/4, 1/4⟩

/-- `p0C` after one update step under `stC` with `dt = 1`: the treble
jitter turns the vertical velocity negative, the position update drives
`y` below `0`, and the wraparound parks it exactly at `y = height`. -/
def p1C : Particle := ⟨0, 4, 343/400, -49/400, 31/125, 7/4, 1/4⟩

/-- Under the constant stream every initialized particle is `p0C`. -/
theorem initParticle_const (k : ℕ) : initParticle tgC rngC 4 4 k = p0C := by
  simp only [initParticle, tgC, rngC, p0C, Particle.mk.injEq]
  norm_num

/-- The initialized particle list is 5000 copies of `p0C`. -/
theorem initParticles_const : ∀ (n k : ℕ),
    initParticles tgC rngC 4 4 n k = List.replicate n p0C := by
  intro n
  induction n with
  | zero => intro k; rfl
  | succ m ih =>
    intro k
    rw [List.replicate_succ]
    simp only [initParticles, initParticle_const]
    rw [ih]

/-- One update step takes `p0C` to `p1C` (and advances the cursor by
two draws, since the particle does not respawn). -/
theorem updateParticle_const (k : ℕ) :
    updateParticle tgC rngC 4 4 stC 1 p0C k = (p1C, k + 2) := by
  simp only [updateParticle, tgC, rngC, stC, p0C, p1C, Prod.mk.injEq, Particle.mk.injEq]
  norm_num

/-- The update loop maps 5000 copies of `p0C` to 5000 copies of
`p1C`. -/
theorem updateParticles_const : ∀ (n k : ℕ),
    (updateParticles tgC rngC 4 4 stC 1 (List.replicate n p0C) k).1 =
      List.replicate n p1C := by
  intro n
  induction n with
  | zero => intro k; rfl
  | succ m ih =>
    intro k
    rw [List.replicate_succ, List.replicate_succ]
    simp only [updateParticles]
    rw [updateParticle_const]
    simp only []
    rw [ih]

/-- C4 counterexample — a single update step of the freshly initialized
5000-particle simulator (full treble, all other state fields zero,
`dt = 1`, every random draw `1/4`) parks every particle at
`y = height = 4`, so positions do not stay within the half-open box
`[0, width) × [0, height)` stated by the claim. -/
theorem particle_escapes_half_open_box :
    ¬ (∀ p ∈ (PSystem.update tgC rngC (PSystem.init tgC rngC 4 4 5000) stC 1).particles,
        0 ≤ p.x ∧ p.x < 4 ∧ 0 ≤ p.y ∧ p.y < 4) := by
  intro hall
  have hparts : (PSystem.update tgC rngC (PSystem.init tgC rngC 4 4 5000) stC 1).particles
      = List.replicate 5000 p1C := by
    simp only [PSystem.update, PSystem.init]
    rw [initParticles_const, updateParticles_const]
  have hmem : p1C ∈ (PSystem.update tgC rngC (PSystem.init tgC rngC 4 4 5000) stC
      1).particles := by
    rw [hparts]
    exact List.mem_replicate.mpr ⟨by norm_num, rfl⟩
  rcases hall p1C hmem with ⟨_, _, _, hy4⟩
  have hy : p1C.y = 4 := rfl
  rw [hy] at hy4
  exact lt_irrefl 4 hy4

/-- The invariant maintained by the window loop of
`detect_sections_enhanced`: the emitted sections chain contiguously from
`0` up to the running section start, which stays within
`[0, duration]`. -/
def SegInv (duration : ℚ) (st : LoopState) : Prop :=
  (st.secs = [] → st.sstart = 0) ∧
  (∀ s ∈ st.secs.head?, s.start = 0) ∧
  (∀ s ∈ st.secs.getLast?, s.«end» = st.sstart) ∧
  List.Chain' (fun a b => a.«end» = b.start) st.secs ∧
  (∀ s ∈ st.secs, s.start ≤ s.«end») ∧
  0 ≤ st.sstart ∧ st.sstart ≤ duration

/-- `getD` of a list is an element or the default. -/
theorem getD_mem_or_eq {α : Type} : ∀ (l : List α) (i : ℕ) (d : α),
    l.getD i d ∈ l ∨ l.getD i d = d := by
  intro l
  induction l with
  | nil => intro i d; exact Or.inr rfl
  | cons a t ih =>
    intro i d
    cases i with
    | zero => exact Or.inl (List.mem_cons_self a t)
    | succ j =>
      rcases ih j d with hm | he
      · exact Or.inl (List.mem_cons_of_mem a hm)
      · exact Or.inr he

/-- One window-loop iteration preserves the segmenter invariant,
provided the window's boundary time lies in `[0, duration]`. -/
theorem sectionStep_inv (smooth density times : List ℚ) (duration : ℚ)
    (lyrics : List LyricSegment) (wsz : ℕ) (high low : ℚ) (i : ℕ)
    (ht : 0 ≤ times.getD i duration ∧ times.getD i duration ≤ duration)
    (st : LoopState) (hinv : SegInv duration st) :
    SegInv duration (sectionStep smooth density times duration lyrics wsz high low st i) := by
  obtain ⟨h1, h2, h3, h4, h5, h6, h7⟩ := hinv
  simp only [sectionStep]
  split
  case isFalse => exact ⟨h1, h2, h3, h4, h5, h6, h7⟩
  case isTrue hcond =>
    have hst : st.sstart ≤ times.getD i duration := by linarith [hcond.2]
    refine ⟨?_, ?_, ?_, ?_, ?_, ht.1, ht.2⟩
    · intro habs
      exact absurd habs (by simp)
    · intro s hs
      cases hsecs : st.secs with
      | nil =>
        rw [hsecs] at hs
        simp only [List.nil_append, List.head?_cons, Option.mem_def, Option.some.injEq] at hs
        rw [← hs]
        exact h1 hsecs
      | cons a tl =>
        rw [hsecs] at hs
        simp only [List.cons_append, List.head?_cons, Option.mem_def, Option.some.injEq] at hs
        rw [← hs]
        have := h2 a
        rw [hsecs] at this
        exact this (by simp)
    · intro s hs
      rw [List.getLast?_concat] at hs
      simp only [Option.mem_def, Option.some.injEq] at hs
      rw [← hs]
    · refine List.chain'_append.mpr ⟨h4, List.chain'_singleton _, ?_⟩
      intro x hx y hy
      simp only [List.head?_cons, Option.mem_def, Option.some.injEq] at hy
      rw [← hy]
      exact h3 x hx
    · intro s hs
      rcases List.mem_append.mp hs with hold | hnew
      · exact h5 s hold
      · simp only [List.mem_singleton] at hnew
        rw [hnew]
        exact hst

/-- The fold of window-loop iterations preserves the invariant. -/
theorem foldSteps_inv (smooth density times : List ℚ) (duration : ℚ)
    (lyrics : List LyricSegment) (wsz : ℕ) (high low : ℚ)
    (ht : ∀ i, 0 ≤ times.getD i duration ∧ times.getD i duration ≤ duration) :
    ∀ (idxs : List ℕ) (st : LoopState), SegInv duration st →
      SegInv duration
        (idxs.foldl (sectionStep smooth density times duration lyrics wsz high low) st) := by
  intro idxs
  induction idxs with
  | nil => intro st h; exact h
  | cons i rest ih =>
    intro st h
    exact ih _ (sectionStep_inv smooth density times duration lyrics wsz high low i
      (ht i) st h)


/-- The post-loop phase turns any invariant-satisfying loop state into a
section list that covers `[0, duration]` contiguously. -/
theorem finishSections_cover (smooth times : List ℚ) (duration : ℚ)
    (lyrics : List LyricSegment) (st : LoopState)
    (hinv : SegInv duration st) (hdur0 : 0 ≤ duration) :
    finishSections smooth times duration lyrics st ≠ [] ∧
    (∀ s ∈ (finishSections smooth times duration lyrics st).head?, s.start = 0) ∧
    (∀ s ∈ (finishSections smooth times duration lyrics st).getLast?, s.«end» = duration) ∧
    List.Chain' (fun a b => a.«end» = b.start)
      (finishSections smooth times duration lyrics st) ∧
    (∀ s ∈ finishSections smooth times duration lyrics st, s.start ≤ s.«end») := by
  obtain ⟨h1, h2, h3, h4, h5, h6, h7⟩ := hinv
  simp only [finishSections]
  by_cases hlt : st.sstart < duration
  · rw [if_pos hlt]
    cases hsecs : st.secs with
    | nil =>
      have hs0 : st.sstart = 0 := h1 hsecs
      simp only [List.nil_append, List.head?_cons]
      rw [if_neg (by rw [hs0]; norm_num)]
      refine ⟨by simp, ?_, ?_, List.chain'_singleton _, ?_⟩
      · intro s hs
        simp only [List.head?_cons, Option.mem_def, Option.some.injEq] at hs
        rw [← hs]
        exact hs0
      · intro s hs
        simp only [List.getLast?_singleton, Option.mem_def, Option.some.injEq] at hs
        rw [← hs]
      · intro s hs
        simp only [List.mem_singleton] at hs
        rw [hs]
        show st.sstart ≤ duration
        exact le_of_lt hlt
    | cons a tl =>
      have ha0 : a.start = 0 := by
        have := h2 a
        rw [hsecs] at this
        exact this (by simp)
      simp only [List.cons_append, List.head?_cons]
      rw [if_neg (by rw [ha0]; norm_num)]
      refine ⟨by simp, ?_, ?_, ?_, ?_⟩
      · intro s hs
        simp only [List.head?_cons, Option.mem_def, Option.some.injEq] at hs
        rw [← hs]
        exact ha0
      · intro s hs
        rw [← List.cons_append, List.getLast?_concat] at hs
        simp only [Option.mem_def, Option.some.injEq] at hs
        rw [← hs]
      · rw [← List.cons_append]
        refine List.chain'_append.mpr ⟨by rw [← hsecs]; exact h4,
          List.chain'_singleton _, ?_⟩
        intro x hx y hy
        simp only [List.head?_cons, Option.mem_def, Option.some.injEq] at hy
        rw [← hy]
        have := h3 x
        rw [hsecs] at this
        exact this hx
      · intro s hs
        rw [← List.cons_append] at hs
        rcases List.mem_append.mp hs with hold | hnew
        · have := h5 s
          rw [hsecs] at this
          exact this hold
        · simp only [List.mem_singleton] at hnew
          rw [hnew]
          show st.sstart ≤ duration
          exact le_of_lt hlt
  · rw [if_neg hlt]
    have hdur : st.sstart = duration := le_antisymm h7 (not_lt.mp hlt)
    cases hsecs : st.secs with
    | nil =>
      simp only [List.head?_nil]
      refine ⟨by simp, ?_, ?_, List.chain'_singleton _, ?_⟩
      · intro s hs
        simp only [List.head?_cons, Option.mem_def, Option.some.injEq] at hs
        rw [← hs]
      · intro s hs
        simp only [List.getLast?_singleton, Option.mem_def, Option.some.injEq] at hs
        rw [← hs]
      · intro s hs
        simp only [List.mem_singleton] at hs
        rw [hs]
        exact hdur0
    | cons a tl =>
      have ha0 : a.start = 0 := by
        have := h2 a
        rw [hsecs] at this
        exact this (by simp)
      simp only [List.head?_cons]
      rw [if_neg (by rw [ha0]; norm_num)]
      refine ⟨by simp, ?_, ?_, ?_, ?_⟩
      · intro s hs
        simp only [List.head?_cons, Option.mem_def, Option.some.injEq] at hs
        rw [← hs]
        exact ha0
      · intro s hs
        have := h3 s
        rw [hsecs] at this
        rw [← hdur]
        exact this hs
      · rw [← hsecs]
        exact h4
      · intro s hs
        have := h5 s
        rw [hsecs] at this
        exact this hs

/-- C1 — for every non-empty feature list with non-negative, sorted
sample times (with or without lyrics), the section list returned by
`detect_sections_enhanced` is an ordered, contiguous, non-overlapping
cover of `[0, duration]` (where `duration` is the last sample time, as
computed by the function): it is non-empty, the first section starts at
`0`, the last section ends at `duration`, every section's end equals the
next section's start, and every section's start is at most its end. -/
theorem section_cover_invariant (sqrtF : ℚ → ℚ) (frames : List FrameFeature)
    (beats : List BeatInfo) (lyrics : List LyricSegment)
    (hne : ¬ frames = [])
    (hsort : (frames.map FrameFeature.time).Pairwise (· ≤ ·))
    (hpos : ∀ f ∈ frames, 0 ≤ f.time) :
    detect_sections_enhanced sqrtF frames beats lyrics ≠ [] ∧
    (∀ s ∈ (detect_sections_enhanced sqrtF frames beats lyrics).head?, s.start = 0) ∧
    (∀ s ∈ (detect_sections_enhanced sqrtF frames beats lyrics).getLast?,
      s.«end» = (frames.map FrameFeature.time).getLastD 0) ∧
    List.Chain' (fun a b => a.«end» = b.start)
      (detect_sections_enhanced sqrtF frames beats lyrics) ∧
    (∀ s ∈ detect_sections_enhanced sqrtF frames beats lyrics, s.start ≤ s.«end») := by
  have htne : frames.map FrameFeature.time ≠ [] := by
    intro h
    exact hne (List.map_eq_nil_iff.mp h)
  have htnn : ∀ x ∈ frames.map FrameFeature.time, 0 ≤ x := by
    intro x hx
    obtain ⟨f, hf, rfl⟩ := List.mem_map.mp hx
    exact hpos f hf
  have hdur0 : 0 ≤ (frames.map FrameFeature.time).getLastD 0 :=
    htnn _ (getLastD_mem_of_ne_nil _ 0 htne)
  have hle := sorted_le_getLastD (frames.map FrameFeature.time) 0 hsort
  have ht : ∀ i, 0 ≤ (frames.map FrameFeature.time).getD i
        ((frames.map FrameFeature.time).getLastD 0) ∧
      (frames.map FrameFeature.time).getD i ((frames.map FrameFeature.time).getLastD 0) ≤
        (frames.map FrameFeature.time).getLastD 0 := by
    intro i
    rcases getD_mem_or_eq (frames.map FrameFeature.time) i
        ((frames.map FrameFeature.time).getLastD 0) with hm | heq
    · exact ⟨htnn _ hm, hle _ hm⟩
    · rw [heq]
      exact ⟨hdur0, le_refl _⟩
  have hinv0 : SegInv ((frames.map FrameFeature.time).getLastD 0)
      ⟨[], "intro", 0⟩ :=
    ⟨fun _ => rfl, by simp, by simp, List.chain'_nil, by simp, le_refl 0, hdur0⟩
  simp only [detect_sections_enhanced, if_neg hne]
  exact finishSections_cover _ _ _ _ _
    (foldSteps_inv _ _ _ _ _ _ _ _ ht _ _ hinv0) hdur0

/-- Witness for C1 at a concrete two-sample timeline without lyrics. -/
theorem section_cover_invariant_witness :
    (¬ ([⟨0, 0, 0, 0, 0⟩, ⟨3, 0, 0, 0, 1⟩] : List FrameFeature) = []) ∧
    (([⟨0, 0, 0, 0, 0⟩, ⟨3, 0, 0, 0, 1⟩] : List FrameFeature).map
      FrameFeature.time).Pairwise (· ≤ ·) ∧
    (detect_sections_enhanced (fun _ => 0) [⟨0, 0, 0, 0, 0⟩, ⟨3, 0, 0, 0, 1⟩] [] [] ≠ [] ∧
    (∀ s ∈ (detect_sections_enhanced (fun _ => 0) [⟨0, 0, 0, 0, 0⟩, ⟨3, 0, 0, 0, 1⟩]
        [] []).head?, s.start = 0) ∧
    (∀ s ∈ (detect_sections_enhanced (fun _ => 0) [⟨0, 0, 0, 0, 0⟩, ⟨3, 0, 0, 0, 1⟩]
        [] []).getLast?,
      s.«end» = (([⟨0, 0, 0, 0, 0⟩, ⟨3, 0, 0, 0, 1⟩] : List FrameFeature).map
        FrameFeature.time).getLastD 0) ∧
    List.Chain' (fun a b => a.«end» = b.start)
      (detect_sections_enhanced (fun _ => 0) [⟨0, 0, 0, 0, 0⟩, ⟨3, 0, 0, 0, 1⟩] [] []) ∧
    (∀ s ∈ detect_sections_enhanced (fun _ => 0) [⟨0, 0, 0, 0, 0⟩, ⟨3, 0, 0, 0, 1⟩] [] [],
      s.start ≤ s.«end»)) :=
  ⟨by decide, by decide,
    section_cover_invariant (fun _ => 0) [⟨0, 0, 0, 0, 0⟩, ⟨3, 0, 0, 0, 1⟩] [] []
      (by decide) (by decide) (by decide)⟩
